import Mathlib

/-!
Verification of the image-processing core of `markdown-to-wordpress`
(`src/etl/0-image-processing/main.py`, class `ImageProcessor`).

The Python code is shallowly embedded:

* `pathlib.Path` objects become `PyPath`: an absoluteness flag plus the list
  of path components (Python's `Path` drops `"."` components and empty
  components at construction; `".."` components are kept and are only
  eliminated by `Path.resolve()`).
* The filesystem is a value `Fs`: the current working directory (used by
  `Path.resolve()` to absolutize relative paths) and the list of existing
  files, stored as normalized absolute paths.
* Python dictionaries (`defaultdict(list)` and plain dicts) become
  association lists that preserve insertion order, exactly as Python's
  `dict` iteration does.
* Exceptions that escape a function (`Path.relative_to` raising
  `ValueError`) become an `Except` result.
-/

namespace MdToWp

/-- A `pathlib.Path` value: whether the path is absolute, and its
components (Python's `PurePath.parts`, without the root anchor). -/
structure PyPath where
  absolute : Bool
  parts : List String
deriving DecidableEq, Repr

/-- `pathlib.Path` division `p / q`: if `q` is absolute it replaces `p`,
otherwise the components concatenate (no normalization happens here). -/
def PyPath.join (p q : PyPath) : PyPath :=
  if q.absolute then q else ⟨p.absolute, p.parts ++ q.parts⟩

/-- `Path.parent`: drop the last component (the parent of `.` is `.`,
the parent of `/` is `/`, matching `List.dropLast [] = []`). -/
def PyPath.parent (p : PyPath) : PyPath :=
  ⟨p.absolute, p.parts.dropLast⟩

/-- `Path.name`: the final component, or `""` for an empty path. -/
def PyPath.name (p : PyPath) : String :=
  p.parts.getLast?.getD ""

/-- One step of path normalization: `"."` is dropped, `".."` pops the last
accumulated component (and is a no-op at the root), anything else is kept. -/
def normStep (stack : List String) (c : String) : List String :=
  if c = "." then stack
  else if c = ".." then stack.dropLast
  else stack ++ [c]

/-- `Path.resolve()` (with no symlinks involved): make the path absolute
against the current working directory `cwd` and eliminate `"."` and `".."`
components. -/
def pyResolve (cwd : List String) (p : PyPath) : PyPath :=
  ⟨true, (if p.absolute then p.parts else cwd ++ p.parts).foldl normStep []⟩

/-- The filesystem visible to the program: the current working directory
(absolute, already normalized) and the existing files as normalized
absolute paths. -/
structure Fs where
  cwd : List String
  files : List PyPath
deriving Repr

/-- `Path.exists()`: the path, normalized to absolute form (which is what
the OS does when it follows `".."` entries), denotes an existing file. -/
def pexists (fs : Fs) (p : PyPath) : Bool :=
  fs.files.contains (pyResolve fs.cwd p)

/-- `str.startswith`, via the underlying character lists. -/
def strStartsWith (s pre : String) : Bool :=
  pre.data.isPrefixOf s.data

/-- `str.lower`, via the underlying character list (ASCII letters). -/
def strLower (s : String) : String :=
  ⟨s.data.map Char.toLower⟩

/-- Split a character list at `/`, keeping empty segments. -/
def splitSlashAux : List Char → List Char → List String
  | [], acc => [⟨acc.reverse⟩]
  | '/' :: rest, acc => String.mk acc.reverse :: splitSlashAux rest []
  | c :: rest, acc => splitSlashAux rest (c :: acc)

/-- The `Path(string)` constructor on POSIX: split on `/`, drop empty and
`"."` components, absolute iff the string starts with `/`. -/
def strToPath (s : String) : PyPath :=
  ⟨strStartsWith s "/",
    (splitSlashAux s.data []).filter (fun c => c ≠ "" && c ≠ ".")⟩

/-- Python `str.lstrip('/')`: remove every leading `/`. -/
def lstripSlash (s : String) : String :=
  ⟨s.data.dropWhile (· = '/')⟩

/-- `ImageProcessor._is_external_url`. -/
def is_external_url (p : String) : Bool :=
  strStartsWith p "http://" || strStartsWith p "https://" ||
    strStartsWith p "//" || strStartsWith p "data:"

/-- `ImageProcessor.resolve_image_path` (main.py lines 90–105): resolve a
reference string against the markdown file's directory / the input root,
returning `none` when the chosen candidate does not exist. -/
def resolve_image_path (fs : Fs) (input_dir : PyPath)
    (img_path : String) (markdown_file : PyPath) : Option PyPath :=
  let resolved :=
    if strStartsWith img_path "/" then
      input_dir.join (strToPath (lstripSlash img_path))
    else if strStartsWith img_path "./" || strStartsWith img_path "../" then
      pyResolve fs.cwd (markdown_file.parent.join (strToPath img_path))
    else
      let r := pyResolve fs.cwd (markdown_file.parent.join (strToPath img_path))
      if pexists fs r then r else input_dir.join (strToPath img_path)
  if pexists fs resolved then some resolved else none

/-- The candidate paths `resolve_image_path` tries, in order, for a given
reference (one candidate for rooted and explicitly-relative references, two
for bare relative references). -/
def resolveCandidates (fs : Fs) (input_dir : PyPath)
    (img_path : String) (markdown_file : PyPath) : List PyPath :=
  if strStartsWith img_path "/" then
    [input_dir.join (strToPath (lstripSlash img_path))]
  else if strStartsWith img_path "./" || strStartsWith img_path "../" then
    [pyResolve fs.cwd (markdown_file.parent.join (strToPath img_path))]
  else
    [pyResolve fs.cwd (markdown_file.parent.join (strToPath img_path)),
     input_dir.join (strToPath img_path)]

/-- Modelled from the spec's words (§4.1 Path Resolver), for comparison
with `resolve_image_path`: rule 1 for `/`-rooted references, rule 2 for
`./`/`../` references, rule 3 (try owning directory, then input root) for
bare references; `none` when the tried candidates do not exist. -/
def resolve_spec (fs : Fs) (input_dir : PyPath)
    (img_path : String) (markdown_file : PyPath) : Option PyPath :=
  if strStartsWith img_path "/" then
    let c := input_dir.join (strToPath (lstripSlash img_path))
    if pexists fs c then some c else none
  else if strStartsWith img_path "./" || strStartsWith img_path "../" then
    let c := pyResolve fs.cwd (markdown_file.parent.join (strToPath img_path))
    if pexists fs c then some c else none
  else
    let c1 := pyResolve fs.cwd (markdown_file.parent.join (strToPath img_path))
    if pexists fs c1 then some c1
    else
      let c2 := input_dir.join (strToPath img_path)
      if pexists fs c2 then some c2 else none

/-- C3: `resolve_image_path` resolves a `/`-rooted reference under the input
root with the leading slashes stripped, a `./`/`../` reference against the
owning file's directory, and a bare reference first against the owning
file's directory and then against the input root; it returns `none` exactly
when no tried candidate corresponds to an existing file. -/
theorem resolve_image_path_follows_spec (fs : Fs) (input_dir : PyPath)
    (img_path : String) (markdown_file : PyPath) :
    resolve_image_path fs input_dir img_path markdown_file =
      resolve_spec fs input_dir img_path markdown_file ∧
    (resolve_image_path fs input_dir img_path markdown_file = none ↔
      (resolveCandidates fs input_dir img_path markdown_file).all
        (fun c => !pexists fs c) = true) := by
  unfold resolve_image_path resolve_spec resolveCandidates
  by_cases h1 : strStartsWith img_path "/"
  · cases h : pexists fs (input_dir.join (strToPath (lstripSlash img_path))) <;>
      simp [h1, h]
  · by_cases h2 : (strStartsWith img_path "./" || strStartsWith img_path "../") = true
    · cases h : pexists fs (pyResolve fs.cwd
          (markdown_file.parent.join (strToPath img_path))) <;>
        simp [h1, h2, h]
    · by_cases h3 : pexists fs (pyResolve fs.cwd
          (markdown_file.parent.join (strToPath img_path))) = true
      · simp [h1, h2, h3]
      · cases h4 : pexists fs (input_dir.join (strToPath img_path)) <;>
          simp [h1, h2, h3, h4]

/-! ## The slug deriver (`ImageProcessor._slugify`, main.py lines 184–205)

`unicodedata.normalize('NFKD', s)` is modelled by a parameter
`nfkd : Char → List Char` (each character decomposes into a sequence of
characters); the subsequent `.encode('ascii','ignore').decode('ascii')` is
the explicit filter keeping code points below 128.  The regular-expression
substitutions act on the now ASCII-only string, where `\w` is
`[a-zA-Z0-9_]` and `\s` is ASCII whitespace.

`str.lower()` is modelled by `Char.toLower`, which lowercases exactly the
ASCII range: a non-ASCII character reaches `nfkd` unchanged, so on such
characters the parameter stands for the composite of Python's Unicode
lowercasing and NFKD.  On ASCII input the pipeline agrees with the Python
code character for character (ASCII code points are NFKD-invariant and
`lower` touches only `A`–`Z`); the C5 theorems below make the non-ASCII
behavior explicit rather than assuming it away: NFKD can emit ASCII
uppercase from a caseless character (`™` decomposes to `TM`), and on
exactly those inputs `_slugify` is not idempotent. -/

/-- ASCII whitespace, the characters matched by `\s` (and stripped by
`str.strip()`) in an ASCII string. -/
def pyIsSpace (c : Char) : Bool :=
  c = ' ' || c = '\t' || c = '\n' || c = '\r' ||
    c = Char.ofNat 11 || c = Char.ofNat 12

/-- `\w` on an ASCII string: alphanumeric or underscore. -/
def isWordChar (c : Char) : Bool :=
  c.isAlpha || c.isDigit || c = '_'

/-- `str.strip()` specialised to a character class: drop matching
characters from both ends. -/
def stripEnds (p : Char → Bool) (l : List Char) : List Char :=
  ((l.dropWhile p).reverse.dropWhile p).reverse

/-- `re.sub(cls+, rep, s)` for a character class `cls`: every maximal run
of characters matching `p` is replaced by the single character `rep`.
The flag records whether the previous character was part of a run. -/
def collapseRunsAux (p : Char → Bool) (rep : Char) : Bool → List Char → List Char
  | _, [] => []
  | inRun, c :: rest =>
    if p c then
      if inRun then collapseRunsAux p rep true rest
      else rep :: collapseRunsAux p rep true rest
    else c :: collapseRunsAux p rep false rest

/-- Replace every maximal run of `p`-characters by the single `rep`. -/
def collapseRuns (p : Char → Bool) (rep : Char) (l : List Char) : List Char :=
  collapseRunsAux p rep false l

/-- The class collapsed to a hyphen by `re.sub(r'[\s_]+', '-', ...)`. -/
def isWsU (c : Char) : Bool := pyIsSpace c || c = '_'

/-- The character pipeline of `_slugify`: lowercase, strip, NFKD-normalize,
drop non-ASCII, delete `[^\w\s-]`, turn `[\s_]+` runs into `-`, collapse
`-+`, strip hyphens. -/
def slugCore (nfkd : Char → List Char) (l : List Char) : List Char :=
  stripEnds (fun c => c = '-')
    (collapseRuns (fun c => c = '-') '-'
      (collapseRuns isWsU '-'
        ((((stripEnds pyIsSpace (l.map Char.toLower)).flatMap nfkd).filter
            (fun c => c.val < 128)).filter
          (fun c => isWordChar c || pyIsSpace c || c = '-'))))

/-- `ImageProcessor._slugify`: the character pipeline, with the literal
fallback `"untitled"` when the result is empty. -/
def _slugify (nfkd : Char → List Char) (text : String) : String :=
  if (slugCore nfkd text.data).isEmpty then "untitled"
  else ⟨slugCore nfkd text.data⟩

/-- A concrete normalization usable on ASCII inputs: NFKD is the identity
on ASCII code points (non-ASCII characters are dropped here; on ASCII-only
inputs this agrees with the real `unicodedata.normalize('NFKD', ·)`). -/
def asciiNfkd (c : Char) : List Char :=
  if c.val < 128 then [c] else []

/-- C6: punctuation is deleted rather than replaced by a hyphen, whitespace
and underscore runs become a single hyphen, and the empty result falls back
to `"untitled"`: the four spec examples, evaluated. -/
theorem slugify_examples :
    _slugify asciiNfkd "Special!@#$%Characters" = "specialcharacters" ∧
    _slugify asciiNfkd "My First Blog Post" = "my-first-blog-post" ∧
    _slugify asciiNfkd "  Spaces  Around  " = "spaces-around" ∧
    _slugify asciiNfkd "" = "untitled" ∧
    _slugify asciiNfkd "!!!" = "untitled" := by
  refine ⟨by decide, by decide, by decide, by decide, by decide⟩

/-! ### Idempotence of `_slugify` (C5)

The output of `_slugify` consists of lowercase ASCII alphanumerics and
single, non-terminal hyphens; every stage of the pipeline fixes such
strings, provided the normalization is the identity on ASCII (true of
NFKD) and never produces an ASCII uppercase letter out of a character
that is not itself an ASCII uppercase letter. -/

/-- The characters `_slugify` can emit: lowercase ASCII letters, ASCII
digits, and the hyphen. -/
def slugChar (c : Char) : Bool :=
  ('a' ≤ c && c ≤ 'z') || ('0' ≤ c && c ≤ '9') || c = '-'

theorem slugChar_ascii {c : Char} (h : slugChar c = true) : c.val < 128 := by
  simp only [slugChar, Bool.or_eq_true, Bool.and_eq_true, decide_eq_true_eq] at h
  have goal : c.val.toNat < 128 → c.val < 128 := fun hh => hh
  apply goal
  rcases h with ((⟨h1, h2⟩ | ⟨h1, h2⟩) | h1)
  · have h2' : c.val.toNat ≤ ('z'.val).toNat := Char.le_def.mp h2
    have hz : ('z'.val).toNat = 122 := by decide
    omega
  · have h2' : c.val.toNat ≤ ('9'.val).toNat := Char.le_def.mp h2
    have h9 : ('9'.val).toNat = 57 := by decide
    omega
  · subst h1; decide

theorem char_eq_iff (c d : Char) : c = d ↔ c.toNat = d.toNat := by
  constructor
  · intro h; rw [h]
  · intro h; exact Char.ext (UInt32.ext h)

theorem isUpper_iff (c : Char) : c.isUpper = true ↔ 65 ≤ c.toNat ∧ c.toNat ≤ 90 := by
  simp only [Char.isUpper, Bool.and_eq_true, decide_eq_true_eq]
  exact Iff.rfl

theorem isLower_iff (c : Char) : c.isLower = true ↔ 97 ≤ c.toNat ∧ c.toNat ≤ 122 := by
  simp only [Char.isLower, Bool.and_eq_true, decide_eq_true_eq]
  exact Iff.rfl

theorem isDigit_iff (c : Char) : c.isDigit = true ↔ 48 ≤ c.toNat ∧ c.toNat ≤ 57 := by
  simp only [Char.isDigit, Bool.and_eq_true, decide_eq_true_eq]
  exact Iff.rfl

theorem slugChar_iff (c : Char) : slugChar c = true ↔
    (97 ≤ c.toNat ∧ c.toNat ≤ 122) ∨ (48 ≤ c.toNat ∧ c.toNat ≤ 57) ∨
      c.toNat = 45 := by
  simp only [slugChar, Bool.or_eq_true, Bool.and_eq_true, decide_eq_true_eq,
    char_eq_iff]
  constructor
  · rintro ((⟨h1, h2⟩ | ⟨h1, h2⟩) | h)
    · exact Or.inl ⟨h1, h2⟩
    · exact Or.inr (Or.inl ⟨h1, h2⟩)
    · exact Or.inr (Or.inr h)
  · rintro (⟨h1, h2⟩ | ⟨h1, h2⟩ | h)
    · exact Or.inl (Or.inl ⟨h1, h2⟩)
    · exact Or.inl (Or.inr ⟨h1, h2⟩)
    · exact Or.inr h

theorem pyIsSpace_iff (c : Char) : pyIsSpace c = true ↔
    c.toNat = 32 ∨ c.toNat = 9 ∨ c.toNat = 10 ∨ c.toNat = 13 ∨
      c.toNat = 11 ∨ c.toNat = 12 := by
  simp only [pyIsSpace, Bool.or_eq_true, decide_eq_true_eq, char_eq_iff]
  have e1 : (' ').toNat = 32 := rfl
  have e2 : ('\t').toNat = 9 := rfl
  have e3 : ('\n').toNat = 10 := rfl
  have e4 : ('\r').toNat = 13 := rfl
  have e5 : (Char.ofNat 11).toNat = 11 := rfl
  have e6 : (Char.ofNat 12).toNat = 12 := rfl
  rw [e1, e2, e3, e4, e5, e6]
  tauto

theorem isWordChar_iff (c : Char) : isWordChar c = true ↔
    (65 ≤ c.toNat ∧ c.toNat ≤ 90) ∨ (97 ≤ c.toNat ∧ c.toNat ≤ 122) ∨
      (48 ≤ c.toNat ∧ c.toNat ≤ 57) ∨ c.toNat = 95 := by
  simp only [isWordChar, Char.isAlpha, Bool.or_eq_true, isUpper_iff,
    isLower_iff, isDigit_iff, decide_eq_true_eq, char_eq_iff]
  have e1 : ('_').toNat = 95 := rfl
  rw [e1]
  tauto

theorem isWsU_iff (c : Char) : isWsU c = true ↔
    c.toNat = 32 ∨ c.toNat = 9 ∨ c.toNat = 10 ∨ c.toNat = 13 ∨
      c.toNat = 11 ∨ c.toNat = 12 ∨ c.toNat = 95 := by
  simp only [isWsU, Bool.or_eq_true, pyIsSpace_iff, decide_eq_true_eq,
    char_eq_iff]
  have e1 : ('_').toNat = 95 := rfl
  rw [e1]
  tauto

theorem slugChar_toLower {c : Char} (h : slugChar c = true) : c.toLower = c := by
  have hn := (slugChar_iff c).mp h
  have hdef : c.toLower =
      if c.toNat ≥ 65 ∧ c.toNat ≤ 90 then Char.ofNat (c.toNat + 32) else c := rfl
  rw [hdef, if_neg (by omega)]

theorem toLower_not_upper (c : Char) : (c.toLower).isUpper = false := by
  have hdef : c.toLower =
      if c.toNat ≥ 65 ∧ c.toNat ≤ 90 then Char.ofNat (c.toNat + 32) else c := rfl
  rw [hdef]
  split
  · next h =>
    have ht : (Char.ofNat (c.toNat + 32)).toNat = c.toNat + 32 := by
      rw [Char.ofNat, dif_pos]
      · rfl
      · exact Or.inl (by omega)
    rw [Bool.eq_false_iff]
    intro hu
    have := (isUpper_iff _).mp hu
    omega
  · next h =>
    rw [Bool.eq_false_iff]
    intro hu
    have := (isUpper_iff _).mp hu
    omega

theorem slugChar_not_wsU {c : Char} (h : slugChar c = true) : isWsU c = false := by
  have hn := (slugChar_iff c).mp h
  rw [Bool.eq_false_iff]
  intro hw
  have := (isWsU_iff c).mp hw
  omega

theorem slugChar_not_space {c : Char} (h : slugChar c = true) :
    pyIsSpace c = false := by
  have hn := (slugChar_iff c).mp h
  rw [Bool.eq_false_iff]
  intro hw
  have := (pyIsSpace_iff c).mp hw
  omega

theorem slugChar_class {c : Char} (h : slugChar c = true) :
    (isWordChar c || pyIsSpace c || c = '-') = true := by
  have hn := (slugChar_iff c).mp h
  simp only [Bool.or_eq_true, decide_eq_true_eq]
  rcases hn with h1 | h1 | h1
  · exact Or.inl (Or.inl ((isWordChar_iff c).mpr (Or.inr (Or.inl h1))))
  · exact Or.inl (Or.inl ((isWordChar_iff c).mpr (Or.inr (Or.inr (Or.inl h1)))))
  · exact Or.inr ((char_eq_iff c '-').mpr h1)

theorem slugChar_of_class {c : Char} (hcls : (isWordChar c || pyIsSpace c || c = '-') = true)
    (hup : c.isUpper = false) (hws : isWsU c = false) : slugChar c = true := by
  simp only [Bool.or_eq_true, decide_eq_true_eq] at hcls
  rw [Bool.eq_false_iff] at hup hws
  apply (slugChar_iff c).mpr
  rcases hcls with (hw | hs) | he
  · have := (isWordChar_iff c).mp hw
    rcases this with h1 | h1 | h1 | h1
    · exact absurd ((isUpper_iff c).mpr h1) hup
    · exact Or.inl h1
    · exact Or.inr (Or.inl h1)
    · exact absurd ((isWsU_iff c).mpr (by omega)) hws
  · have := (pyIsSpace_iff c).mp hs
    exact absurd ((isWsU_iff c).mpr (by omega)) hws
  · exact Or.inr (Or.inr ((char_eq_iff c '-').mp he))

theorem mem_collapseRunsAux (p : Char → Bool) (rep : Char) :
    ∀ (l : List Char) (b : Bool) (c : Char), c ∈ collapseRunsAux p rep b l →
      c = rep ∨ (c ∈ l ∧ p c = false) := by
  intro l
  induction l with
  | nil => intro b c hc; simp [collapseRunsAux] at hc
  | cons a rest ih =>
    intro b c hc
    unfold collapseRunsAux at hc
    by_cases hp : p a = true
    · rw [if_pos hp] at hc
      cases b with
      | true =>
        rcases ih true c hc with h | ⟨h1, h2⟩
        · exact Or.inl h
        · exact Or.inr ⟨List.mem_cons_of_mem a h1, h2⟩
      | false =>
        rcases List.mem_cons.mp hc with h | h
        · exact Or.inl h
        · rcases ih true c h with h' | ⟨h1, h2⟩
          · exact Or.inl h'
          · exact Or.inr ⟨List.mem_cons_of_mem a h1, h2⟩
    · rw [if_neg hp] at hc
      rcases List.mem_cons.mp hc with h | h
      · subst h; exact Or.inr ⟨List.mem_cons_self c rest, Bool.eq_false_iff.mpr hp⟩
      · rcases ih false c h with h' | ⟨h1, h2⟩
        · exact Or.inl h'
        · exact Or.inr ⟨List.mem_cons_of_mem a h1, h2⟩

theorem collapseRunsAux_eq_self (p : Char → Bool) (rep : Char) :
    ∀ (l : List Char) (b : Bool), (∀ c ∈ l, p c = false) →
      collapseRunsAux p rep b l = l := by
  intro l
  induction l with
  | nil => intro b _; rfl
  | cons a rest ih =>
    intro b h
    have ha : p a = false := h a (List.mem_cons_self a rest)
    unfold collapseRunsAux
    rw [if_neg (by simp [ha])]
    rw [ih false (fun c hc => h c (List.mem_cons_of_mem a hc))]

theorem collapseRunsAux_head_not (p : Char → Bool) (rep : Char) :
    ∀ (l : List Char) (d : Char),
      (collapseRunsAux p rep true l).head? = some d → p d = false := by
  intro l
  induction l with
  | nil => intro d hd; simp [collapseRunsAux] at hd
  | cons a rest ih =>
    intro d hd
    unfold collapseRunsAux at hd
    by_cases hp : p a = true
    · rw [if_pos hp] at hd
      exact ih d hd
    · rw [if_neg hp] at hd
      simp only [List.head?_cons, Option.some.injEq] at hd
      subst hd
      exact Bool.eq_false_iff.mpr hp

theorem chain'_collapseRunsAux (p : Char → Bool) (rep : Char) :
    ∀ (l : List Char) (b : Bool),
      List.Chain' (fun a c => ¬(p a = true ∧ p c = true))
        (collapseRunsAux p rep b l) := by
  intro l
  induction l with
  | nil => intro b; simp [collapseRunsAux]
  | cons a rest ih =>
    intro b
    unfold collapseRunsAux
    by_cases hp : p a = true
    · rw [if_pos hp]
      cases b with
      | true => exact ih true
      | false =>
        rw [if_neg (by decide : ¬(false = true))]
        apply List.chain'_cons'.mpr
        refine ⟨?_, ih true⟩
        intro y hy
        have := collapseRunsAux_head_not p rep rest y hy
        intro ⟨_, h2⟩
        rw [this] at h2
        exact Bool.false_ne_true h2
    · rw [if_neg hp]
      apply List.chain'_cons'.mpr
      refine ⟨?_, ih false⟩
      intro y _
      intro ⟨h1, _⟩
      exact hp h1

theorem collapseRunsAux_id_of_chain (p : Char → Bool) (rep : Char) :
    ∀ l : List Char,
      List.Chain' (fun a c => ¬(p a = true ∧ p c = true)) l →
      (∀ c ∈ l, p c = true → c = rep) →
      (collapseRunsAux p rep false l = l ∧
        (∀ d, l.head? = some d → p d = false →
          collapseRunsAux p rep true l = l)) := by
  intro l
  induction l with
  | nil => exact fun _ _ => ⟨rfl, fun d hd => by simp at hd⟩
  | cons a rest ih =>
    intro hchain hmem
    have hchain' : List.Chain' (fun a c => ¬(p a = true ∧ p c = true)) rest :=
      List.Chain'.tail hchain
    have hmem' : ∀ c ∈ rest, p c = true → c = rep :=
      fun c hc => hmem c (List.mem_cons_of_mem a hc)
    obtain ⟨ihA, ihB⟩ := ih hchain' hmem'
    constructor
    · unfold collapseRunsAux
      by_cases hp : p a = true
      · rw [if_pos hp]
        rw [if_neg (by decide : ¬(false = true))]
        have ha : a = rep := hmem a (List.mem_cons_self a rest) hp
        have htrue : collapseRunsAux p rep true rest = rest := by
          cases rest with
          | nil => rfl
          | cons e r2 =>
            have hrel := List.chain'_cons.mp hchain
            have hpe : p e = false := by
              rcases Bool.eq_false_or_eq_true (p e) with h | h
              · exact absurd ⟨hp, h⟩ hrel.1
              · exact h
            exact ihB e rfl hpe
        rw [htrue, ha]
      · rw [if_neg hp, ihA]
    · intro d hd hpd
      simp only [List.head?_cons, Option.some.injEq] at hd
      subst hd
      unfold collapseRunsAux
      rw [if_neg (by simp [hpd]), ihA]

theorem stripEnds_subset (p : Char → Bool) (l : List Char) :
    stripEnds p l ⊆ l := by
  intro c hc
  unfold stripEnds at hc
  rw [List.mem_reverse] at hc
  have h1 := List.dropWhile_subset p hc
  rw [List.mem_reverse] at h1
  exact List.dropWhile_subset p h1

theorem dropWhile_eq_self_of_head (p : Char → Bool) (l : List Char)
    (h : ∀ d, l.head? = some d → p d = false) : l.dropWhile p = l := by
  cases l with
  | nil => rfl
  | cons a rest =>
    have := h a rfl
    rw [List.dropWhile_cons_of_neg (by simp [this])]

theorem head?_stripEnds (p : Char → Bool) (l : List Char) (d : Char)
    (h : (stripEnds p l).head? = some d) : p d = false := by
  unfold stripEnds at h
  set X := l.dropWhile p with hX
  set Y := X.reverse.dropWhile p with hY
  rw [List.head?_reverse] at h
  obtain ⟨t, ht⟩ := List.dropWhile_suffix (l := X.reverse) p
  have hYne : Y ≠ [] := by
    intro hnil
    rw [hnil] at h
    simp at h
  have hgl : (t ++ Y).getLast? = Y.getLast? :=
    List.getLast?_append_of_ne_nil t hYne
  rw [ht] at hgl
  rw [List.getLast?_reverse] at hgl
  have hxh : X.head? = some d := by rw [hgl]; exact h
  have := List.head?_dropWhile_not p l
  rw [← hX, hxh] at this
  exact this

theorem getLast?_stripEnds (p : Char → Bool) (l : List Char) (d : Char)
    (h : (stripEnds p l).getLast? = some d) : p d = false := by
  unfold stripEnds at h
  rw [List.getLast?_reverse] at h
  have := List.head?_dropWhile_not p (l.dropWhile p).reverse
  rw [h] at this
  exact this

theorem stripEnds_eq_self (p : Char → Bool) (l : List Char)
    (hh : ∀ d, l.head? = some d → p d = false)
    (hl : ∀ d, l.getLast? = some d → p d = false) : stripEnds p l = l := by
  unfold stripEnds
  rw [dropWhile_eq_self_of_head p l hh]
  rw [dropWhile_eq_self_of_head p l.reverse
    (by intro d hd; rw [List.head?_reverse] at hd; exact hl d hd)]
  exact List.reverse_reverse l

theorem chain'_stripEnds (R : Char → Char → Prop) (p : Char → Bool)
    (l : List Char) (h : List.Chain' R l) :
    List.Chain' R (stripEnds p l) := by
  unfold stripEnds
  have h1 : List.Chain' R (l.dropWhile p) :=
    List.Chain'.suffix h (List.dropWhile_suffix p)
  have h2 : List.Chain' (flip R) (l.dropWhile p).reverse := by
    rw [List.chain'_reverse]
    exact List.Chain'.imp (fun a b hab => hab) h1
  have h3 : List.Chain' (flip R) ((l.dropWhile p).reverse.dropWhile p) :=
    List.Chain'.suffix h2 (List.dropWhile_suffix p)
  rw [List.chain'_reverse]
  exact List.Chain'.imp (fun a b hab => hab) h3

theorem map_eq_self_of (f : Char → Char) (l : List Char)
    (h : ∀ c ∈ l, f c = c) : l.map f = l := by
  induction l with
  | nil => rfl
  | cons a rest ih =>
    rw [List.map_cons, h a (List.mem_cons_self a rest),
      ih (fun c hc => h c (List.mem_cons_of_mem a hc))]

theorem flatMap_eq_self_of (f : Char → List Char) (l : List Char)
    (h : ∀ c ∈ l, f c = [c]) : l.flatMap f = l := by
  induction l with
  | nil => rfl
  | cons a rest ih =>
    rw [List.flatMap_cons, h a (List.mem_cons_self a rest),
      ih (fun c hc => h c (List.mem_cons_of_mem a hc))]
    rfl

theorem slugCore_chars (nfkd : Char → List Char)
    (h2 : ∀ c : Char, c.isUpper = false → ∀ d ∈ nfkd c, d.isUpper = false)
    (l : List Char) : ∀ c ∈ slugCore nfkd l, slugChar c = true := by
  intro c hc
  unfold slugCore at hc
  have hc6 := stripEnds_subset _ _ hc
  rcases mem_collapseRunsAux _ _ _ _ _ hc6 with h | ⟨hc5, _⟩
  · subst h; decide
  rcases mem_collapseRunsAux _ _ _ _ _ hc5 with h | ⟨hc4, hnw⟩
  · subst h; decide
  have hc4' := List.mem_filter.mp hc4
  obtain ⟨hc3, hcls⟩ := hc4'
  have hc3' := List.mem_filter.mp hc3
  obtain ⟨hcf, _⟩ := hc3'
  obtain ⟨x, hx, hcx⟩ := List.exists_of_mem_flatMap hcf
  have hx1 := stripEnds_subset _ _ hx
  obtain ⟨y, _, hy⟩ := List.mem_map.mp hx1
  have hxup : x.isUpper = false := by rw [← hy]; exact toLower_not_upper y
  have hup : c.isUpper = false := h2 x hxup c hcx
  exact slugChar_of_class hcls hup hnw

theorem slugCore_chain (nfkd : Char → List Char) (l : List Char) :
    List.Chain' (fun a b => ¬(a = '-' ∧ b = '-')) (slugCore nfkd l) := by
  unfold slugCore
  apply chain'_stripEnds
  have h := chain'_collapseRunsAux (fun c => c = '-') '-'
    (collapseRuns isWsU '-'
      ((((stripEnds pyIsSpace (l.map Char.toLower)).flatMap nfkd).filter
          (fun c => c.val < 128)).filter
        (fun c => isWordChar c || pyIsSpace c || c = '-'))) false
  apply List.Chain'.imp ?_ h
  intro a b hab ⟨ha, hb⟩
  exact hab ⟨by simp [ha], by simp [hb]⟩

theorem slugCore_head (nfkd : Char → List Char) (l : List Char) (d : Char)
    (h : (slugCore nfkd l).head? = some d) : d ≠ '-' := by
  unfold slugCore at h
  have := head?_stripEnds _ _ _ h
  simpa using this

theorem slugCore_getLast (nfkd : Char → List Char) (l : List Char) (d : Char)
    (h : (slugCore nfkd l).getLast? = some d) : d ≠ '-' := by
  unfold slugCore at h
  have := getLast?_stripEnds _ _ _ h
  simpa using this

/-- Every stage of the `_slugify` pipeline fixes a nonempty string of slug
characters with no double, leading or trailing hyphen, provided the
normalization is the identity on ASCII code points (as NFKD is). -/
theorem slugify_fixed (nfkd : Char → List Char)
    (h1 : ∀ c : Char, c.val < 128 → nfkd c = [c]) (l : List Char)
    (hchars : ∀ c ∈ l, slugChar c = true)
    (hchain : List.Chain' (fun a b => ¬(a = '-' ∧ b = '-')) l)
    (hhead : ∀ d, l.head? = some d → d ≠ '-')
    (hlast : ∀ d, l.getLast? = some d → d ≠ '-')
    (hne : l ≠ []) : _slugify nfkd ⟨l⟩ = ⟨l⟩ := by
  have hcore : slugCore nfkd l = l := by
    unfold slugCore
    rw [map_eq_self_of _ _ (fun c hc => slugChar_toLower (hchars c hc))]
    rw [stripEnds_eq_self _ _
      (fun d hd => slugChar_not_space (hchars d (List.mem_of_mem_head? hd)))
      (fun d hd => slugChar_not_space (hchars d (List.mem_of_mem_getLast? hd)))]
    rw [flatMap_eq_self_of _ _
      (fun c hc => h1 c (slugChar_ascii (hchars c hc)))]
    rw [List.filter_eq_self.mpr
      (fun c hc => decide_eq_true (slugChar_ascii (hchars c hc)))]
    rw [List.filter_eq_self.mpr (fun c hc => slugChar_class (hchars c hc))]
    rw [show collapseRuns isWsU '-' l = l from
      collapseRunsAux_eq_self _ _ _ _
        (fun c hc => slugChar_not_wsU (hchars c hc))]
    have hch : List.Chain'
        (fun a b => ¬((fun c => decide (c = '-')) a = true ∧
          (fun c => decide (c = '-')) b = true)) l := by
      apply List.Chain'.imp ?_ hchain
      intro a b hab ⟨ha, hb⟩
      exact hab ⟨by simpa using ha, by simpa using hb⟩
    have hid := (collapseRunsAux_id_of_chain (fun c => c = '-') '-' l hch
      (fun c _ hc => by simpa using hc)).1
    rw [show collapseRuns (fun c => c = '-') '-' l = l from hid]
    exact stripEnds_eq_self _ _
      (fun d hd => by simpa using hhead d hd)
      (fun d hd => by simpa using hlast d hd)
  unfold _slugify
  have hd : (String.mk l).data = l := rfl
  rw [hd, hcore, if_neg (by simpa using hne)]

theorem untitled_props :
    (∀ c ∈ ("untitled" : String).data, slugChar c = true) ∧
    List.Chain' (fun a b => ¬(a = '-' ∧ b = '-')) ("untitled" : String).data ∧
    (∀ d, ("untitled" : String).data.head? = some d → d ≠ '-') ∧
    (∀ d, ("untitled" : String).data.getLast? = some d → d ≠ '-') ∧
    ("untitled" : String).data ≠ [] := by
  have hd : ("untitled" : String).data =
      ['u', 'n', 't', 'i', 't', 'l', 'e', 'd'] := rfl
  rw [hd]
  refine ⟨?_, ?_, ?_, ?_, by decide⟩
  · intro c hc
    fin_cases hc <;> decide
  · repeat (apply List.chain'_cons.mpr; refine ⟨by decide, ?_⟩)
    exact List.chain'_singleton 'd'
  · intro d hd'
    simp only [List.head?_cons, Option.some.injEq] at hd'
    subst hd'; decide
  · intro d hd'
    have : (['u', 'n', 't', 'i', 't', 'l', 'e', 'd'] : List Char).getLast? =
        some 'd' := rfl
    rw [this] at hd'
    simp only [Option.some.injEq] at hd'
    subst hd'; decide

/-- The fragment of NFKD relevant to the C5 counterexample: the trademark
sign `™` (U+2122) has the compatibility decomposition `TM` — ASCII
uppercase out of a caseless character — and ASCII code points are
NFKD-invariant (other non-ASCII characters, irrelevant here, are
dropped).  Python's `lower()` leaves `™`, `T`-after-encode never arises:
on the two strings of the counterexample this agrees with the real
pipeline character for character. -/
def tmNfkd (c : Char) : List Char :=
  if c = '™' then ['T', 'M']
  else if c.val < 128 then [c] else []

/-- C5 counterexample: `slugify` is not idempotent on every input string.
`™` is caseless, so `lower()` keeps it; NFKD decomposes it to the ASCII
uppercase `TM`, which survives the ASCII encode and the character filters,
so `slugify('™') = 'TM'`; a second application lowercases it to `'tm'`. -/
theorem slugify_not_idempotent_counterexample :
    _slugify tmNfkd "™" = "TM" ∧
    _slugify tmNfkd (_slugify tmNfkd "™") = "tm" ∧
    _slugify tmNfkd (_slugify tmNfkd "™") ≠ _slugify tmNfkd "™" := by
  refine ⟨by decide, by decide, by decide⟩

/-- C5 as amended: `_slugify` is idempotent on every input string whose
normalization introduces no ASCII uppercase — precisely, for every
normalization `nfkd` that is the identity on ASCII code points (true of
NFKD) and never produces an ASCII uppercase letter from a character that
is not itself an ASCII uppercase letter.  The counterexample above shows
the second condition is exactly what failure requires: where NFKD emits
uppercase (as for `™`), idempotence is lost. -/
theorem slugify_idempotent (nfkd : Char → List Char)
    (h1 : ∀ c : Char, c.val < 128 → nfkd c = [c])
    (h2 : ∀ c : Char, c.isUpper = false → ∀ d ∈ nfkd c, d.isUpper = false)
    (text : String) :
    _slugify nfkd (_slugify nfkd text) = _slugify nfkd text := by
  obtain ⟨u1, u2, u3, u4, u5⟩ := untitled_props
  by_cases hemp : (slugCore nfkd text.data).isEmpty = true
  · have hres : _slugify nfkd text = "untitled" := by
      unfold _slugify; rw [if_pos hemp]
    rw [hres]
    exact slugify_fixed nfkd h1 ("untitled" : String).data u1 u2 u3 u4 u5
  · have hres : _slugify nfkd text = ⟨slugCore nfkd text.data⟩ := by
      unfold _slugify; rw [if_neg hemp]
    rw [hres]
    exact slugify_fixed nfkd h1 (slugCore nfkd text.data)
      (slugCore_chars nfkd h2 text.data) (slugCore_chain nfkd text.data)
      (slugCore_head nfkd text.data) (slugCore_getLast nfkd text.data)
      (by simpa using hemp)

/-- Witness for C5: the hypotheses hold for a concrete normalization (the
identity on ASCII, dropping the rest) and the theorem evaluates on a
concrete string. -/
theorem slugify_idempotent_witness :
    (∀ c : Char, c.val < 128 → asciiNfkd c = [c]) ∧
    (∀ c : Char, c.isUpper = false → ∀ d ∈ asciiNfkd c, d.isUpper = false) ∧
    _slugify asciiNfkd (_slugify asciiNfkd "A  strange__Title!") =
      _slugify asciiNfkd "A  strange__Title!" := by
  have h1 : ∀ c : Char, c.val < 128 → asciiNfkd c = [c] := by
    intro c hc; unfold asciiNfkd; rw [if_pos hc]
  have h2 : ∀ c : Char, c.isUpper = false → ∀ d ∈ asciiNfkd c, d.isUpper = false := by
    intro c hc d hd
    unfold asciiNfkd at hd
    split at hd
    · rw [List.mem_singleton.mp hd]; exact hc
    · simp at hd
  exact ⟨h1, h2, slugify_idempotent asciiNfkd h1 h2 "A  strange__Title!"⟩

/-! ## Documents, frontmatter, and slug extraction -/

/-- `Path.suffix`, CPython semantics: the part of the final component from
its last dot, unless the dot is the first or the last character. -/
def pySuffix (name : String) : String :=
  match name.data.reverse.findIdx? (fun c => c = '.') with
  | none => ""
  | some j =>
    let i := name.data.length - 1 - j
    if 0 < i ∧ i < name.data.length - 1 then ⟨name.data.drop i⟩ else ""

/-- `Path.stem`: the final component without `pySuffix`. -/
def pyStem (name : String) : String :=
  match name.data.reverse.findIdx? (fun c => c = '.') with
  | none => name
  | some j =>
    let i := name.data.length - 1 - j
    if 0 < i ∧ i < name.data.length - 1 then ⟨name.data.take i⟩ else name

example : pySuffix "photo.JPG" = ".JPG" := by decide
example : pyStem "photo.JPG" = "photo" := by decide
example : pySuffix ".md" = "" := by decide
example : pyStem "archive.tar.gz" = "archive.tar" := by decide

/-- Frontmatter: the key-value mapping extracted from the YAML block (only
string values are relevant to the image-processing core). -/
abbrev Fm := List (String × String)

/-- `key in fm` plus `fm[key]`: the first binding of `k`. -/
def fmLookup (fm : Fm) (k : String) : Option String :=
  (fm.find? (fun e => e.1 = k)).map (fun e => e.2)

/-- A scanned markdown document: its path, its parsed frontmatter and its
body text. -/
structure MarkdownDoc where
  path : PyPath
  fm : Fm
  content : String
deriving DecidableEq, Repr

/-- A markdown file on disk, before frontmatter parsing. -/
structure RawFile where
  path : PyPath
  text : String

/-- `ImageProcessor.extract_frontmatter_and_content` (main.py lines 50–60):
the `frontmatter.load` library call is modelled by the parameter `parse`
(`none` models any exception while opening or parsing); on failure the
function logs a warning and returns an empty mapping and an empty string. -/
def extract_frontmatter_and_content (parse : String → Option (Fm × String))
    (raw : String) : Fm × String :=
  match parse raw with
  | some r => r
  | none => ([], "")

/-- A document as the scanner sees it after frontmatter extraction. -/
def mkDoc (parse : String → Option (Fm × String)) (rf : RawFile) :
    MarkdownDoc :=
  ⟨rf.path, (extract_frontmatter_and_content parse rf.text).1,
    (extract_frontmatter_and_content parse rf.text).2⟩

/-- The fixed priority order of featured-image frontmatter keys. -/
def featured_keys : List String :=
  ["featured_image", "image", "cover_image", "hero_image"]

/-- First key present with a truthy (nonempty) value wins. -/
def findFeaturedIn : List String → Fm → Option String
  | [], _ => none
  | k :: rest, fm =>
    match fmLookup fm k with
    | some v => if v ≠ "" then some v else findFeaturedIn rest fm
    | none => findFeaturedIn rest fm

/-- `re.sub(r'^\d{4}-\d{2}-\d{2}-', '', filename)`: strip a leading
`YYYY-MM-DD-` date. -/
def stripDatePrefixChars : List Char → List Char
  | a :: b :: c :: d :: '-' :: e :: f :: '-' :: g :: h :: '-' :: rest =>
    if a.isDigit && b.isDigit && c.isDigit && d.isDigit && e.isDigit &&
        f.isDigit && g.isDigit && h.isDigit then rest
    else a :: b :: c :: d :: '-' :: e :: f :: '-' :: g :: h :: '-' :: rest
  | l => l

def stripDatePrefix (s : String) : String :=
  ⟨stripDatePrefixChars s.data⟩

example : stripDatePrefix "2023-01-15-my-first-post" = "my-first-post" := by decide
example : stripDatePrefix "notes-2023" = "notes-2023" := by decide

/-- The documents visible on disk stand in for re-reading a markdown file:
`_extract_slug_from_file` re-opens `md_file`, so the scanned documents are
passed along (a path that cannot be read behaves like a parse failure:
empty frontmatter). -/
def lookupDoc (docs : List MarkdownDoc) (p : PyPath) : Option MarkdownDoc :=
  docs.find? (fun d => d.path = p)

/-- `ImageProcessor._extract_slug_from_file` (main.py lines 168–182):
frontmatter `slug`, else frontmatter `title`, else the file stem with a
leading date stripped — each slugified. -/
def _extract_slug_from_file (nfkd : Char → List Char)
    (docs : List MarkdownDoc) (md_file : PyPath) : String :=
  let fm := match lookupDoc docs md_file with
    | some d => d.fm
    | none => []
  match fmLookup fm "slug" with
  | some v => _slugify nfkd v
  | none =>
    match fmLookup fm "title" with
    | some v => _slugify nfkd v
    | none => _slugify nfkd (stripDatePrefix (pyStem md_file.name))

/-! ## Finding image references in a body
(`ImageProcessor.find_images_in_content`, main.py lines 62–84)

The two regular expressions are implemented directly.
`!\[([^\]]*)\]\(([^)]+)\)`: after `![`, the alt text runs to the first `]`
(the class `[^\]]*` cannot cross it), then `](`, then a nonempty target up
to the first `)`.  `<img[^>]+src=["\']([^"\']+)["\']`: after `<img`, a
greedy nonempty run of non-`>` characters backtracks from the longest
prefix until `src=`, a quote, a nonempty run of non-quote characters and a
closing quote follow.  `re.finditer` scans left to right and resumes after
each match; the scan is written with an explicit fuel, set to the length of
the text, which one step (advancing at least one character) never
exhausts. -/

/-- Match `!\[([^\]]*)\]\(([^)]+)\)` anchored at the head of the list;
returns the captured target and the remainder after the match. -/
def mdMatchAt : List Char → Option (String × List Char)
  | '!' :: '[' :: rest =>
    (match rest.dropWhile (fun c => c ≠ ']') with
      | ']' :: '(' :: r2 =>
        (let tgt := r2.takeWhile (fun c => c ≠ ')')
         if tgt.isEmpty then none
         else
           match r2.dropWhile (fun c => c ≠ ')') with
           | ')' :: r3 => some (⟨tgt⟩, r3)
           | _ => none)
      | _ => none)
  | _ => none

/-- A quote character, `["\']`. -/
def isQuoteCh (c : Char) : Bool := c = '"' || c = Char.ofNat 39

/-- Backtracking arm of the `<img` pattern: try the `[^>]+` group at length
`k`, longest first, then require `src=`, a quote, a nonempty unquoted run,
and a quote. -/
def tryHtmlArm (rest : List Char) : Nat → Option (String × List Char)
  | 0 => none
  | k + 1 =>
    match rest.drop (k + 1) with
    | 's' :: 'r' :: 'c' :: '=' :: q :: r2 =>
      if isQuoteCh q then
        (let tgt := r2.takeWhile (fun c => !isQuoteCh c)
         if tgt.isEmpty then tryHtmlArm rest k
         else
           match r2.drop tgt.length with
           | q2 :: r3 =>
             if isQuoteCh q2 then some (⟨tgt⟩, r3) else tryHtmlArm rest k
           | [] => tryHtmlArm rest k)
      else tryHtmlArm rest k
    | _ => tryHtmlArm rest k

/-- Match `<img[^>]+src=["\']([^"\']+)["\']` anchored at the head. -/
def htmlMatchAt : List Char → Option (String × List Char)
  | '<' :: 'i' :: 'm' :: 'g' :: rest =>
    tryHtmlArm rest (rest.takeWhile (fun c => c ≠ '>')).length
  | _ => none

/-- `re.finditer`: try the pattern at every position, left to right,
resuming after each (non-overlapping) match. -/
def findAll (matchAt : List Char → Option (String × List Char)) :
    Nat → List Char → List String
  | 0, _ => []
  | fuel + 1, cs =>
    match cs with
    | [] => []
    | c :: rest =>
      match matchAt (c :: rest) with
      | some (s, after) => s :: findAll matchAt fuel after
      | none => findAll matchAt fuel rest

/-- `ImageProcessor.find_images_in_content`: all markdown-syntax matches
(in text order, external URLs dropped), then all HTML `<img>` matches. -/
def find_images_in_content (content : String) : List (String × String) :=
  ((findAll mdMatchAt content.data.length content.data).filter
      (fun p => !is_external_url p)).map (fun p => (p, "markdown")) ++
    ((findAll htmlMatchAt content.data.length content.data).filter
      (fun p => !is_external_url p)).map (fun p => (p, "html"))

example : find_images_in_content "a ![x](./one.png) b <img src=\"two.png\"> c" =
    [("./one.png", "markdown"), ("two.png", "html")] := by decide
example : find_images_in_content "<img src='early.png'> then ![x](late.png)" =
    [("late.png", "markdown"), ("early.png", "html")] := by decide
example : find_images_in_content "![ext](https://x.com/a.png) ![in](a.png)" =
    [("a.png", "markdown")] := by decide
example : find_images_in_content "<img class='w' src='deep.png'/>" =
    [("deep.png", "html")] := by decide

/-! ## The usage index
(`ImageProcessor.analyze_image_usage`, main.py lines 107–139) -/

/-- `defaultdict(list)`: append `v` to the bucket of `k`, creating the
bucket at the end (dictionaries preserve insertion order). -/
def appendAssoc {α : Type} : List (PyPath × List α) → PyPath → α →
    List (PyPath × List α)
  | [], k, v => [(k, [v])]
  | (k', vs) :: rest, k, v =>
    if k' = k then (k', vs ++ [v]) :: rest
    else (k', vs) :: appendAssoc rest k v

/-- Plain dictionary assignment `d[k] = v`. -/
def setAssoc {α : Type} : List (PyPath × α) → PyPath → α →
    List (PyPath × α)
  | [], k, v => [(k, v)]
  | (k', v') :: rest, k, v =>
    if k' = k then (k, v) :: rest else (k', v') :: setAssoc rest k v

/-- `defaultdict(int)` read. -/
def cntGet (cnt : List (PyPath × Nat)) (k : PyPath) : Nat :=
  match cnt.find? (fun e => e.1 = k) with
  | some e => e.2
  | none => 0

/-- The four accumulator dictionaries of `ImageProcessor`. -/
structure ScanState where
  image_usage : List (PyPath × List PyPath)
  file_images : List (PyPath × List PyPath)
  featured_images : List (PyPath × PyPath)
  image_references : List (PyPath × List (PyPath × String × String))
deriving DecidableEq, Repr

def emptyScan : ScanState := ⟨[], [], [], []⟩

/-- One iteration of the `analyze_image_usage` loop: record the featured
image named by the frontmatter (resolved without an external-URL check,
exactly as the code does), then each body reference in order. -/
def analyzeDoc (fs : Fs) (input_dir : PyPath) (st : ScanState)
    (doc : MarkdownDoc) : ScanState :=
  let st1 :=
    match findFeaturedIn featured_keys doc.fm with
    | some fimg =>
      match resolve_image_path fs input_dir fimg doc.path with
      | some rp =>
        { st with
          featured_images := setAssoc st.featured_images doc.path rp
          image_usage := appendAssoc st.image_usage rp doc.path
          image_references :=
            appendAssoc st.image_references rp (doc.path, "featured", fimg) }
      | none => st
    | none => st
  (find_images_in_content doc.content).foldl (fun st2 pr =>
    match resolve_image_path fs input_dir pr.1 doc.path with
    | some rp =>
      { st2 with
        image_usage := appendAssoc st2.image_usage rp doc.path
        file_images := appendAssoc st2.file_images doc.path rp
        image_references :=
          appendAssoc st2.image_references rp (doc.path, pr.2, pr.1) }
    | none => st2) st1

/-- `ImageProcessor.analyze_image_usage` over the scanned documents, in
`find_markdown_files` order. -/
def analyze_image_usage (fs : Fs) (input_dir : PyPath)
    (docs : List MarkdownDoc) : ScanState :=
  docs.foldl (analyzeDoc fs input_dir) emptyScan

/-! ## Filename generation and the rename map
(`generate_seo_filename`, lines 141–166; `create_rename_dictionary`,
lines 207–235; `find_orphaned_images`, lines 237–248) -/

/-- `f"{n:02d}"` for a nonnegative `n`. -/
def pad2 (n : Nat) : String :=
  if n < 10 then "0" ++ toString n else toString n

example : pad2 2 = "02" := by decide
example : pad2 12 = "12" := by decide

/-- `ImageProcessor.generate_seo_filename`: single-use images are named
after the owning document's slug (with `-feature` or a two-digit sequence
suffix), multi-use images after the slugified original stem; the extension
is the lowercased original extension. -/
def generate_seo_filename (nfkd : Char → List Char)
    (docs : List MarkdownDoc) (original_path : PyPath)
    (usage_context : List PyPath) (is_featured : Bool) (sequence : Nat) :
    String :=
  let ext := strLower (pySuffix (PyPath.name original_path))
  match usage_context with
  | [md_file] =>
    let slug := _extract_slug_from_file nfkd docs md_file
    if is_featured then slug ++ "-feature" ++ ext
    else if sequence > 0 then slug ++ "-" ++ pad2 sequence ++ ext
    else slug ++ ext
  | _ => _slugify nfkd (pyStem (PyPath.name original_path)) ++ ext

/-- `Path.relative_to(root)`: the components after `root`, or `none`
(Python raises `ValueError`) when the path is not rooted there — in
particular whenever one path is absolute and the other relative. -/
def relative_to (p root : PyPath) : Option (List String) :=
  if p.absolute = root.absolute && root.parts.isPrefixOf p.parts then
    some (p.parts.drop root.parts.length)
  else none

/-- Components joined with `/`. -/
def joinSlash : List String → List Char
  | [] => []
  | [s] => s.data
  | s :: rest => s.data ++ '/' :: joinSlash rest

/-- `str()` of a relative `Path` rebuilt from components (the empty
relative path prints as `"."`). -/
def renderRel (parts : List String) : String :=
  if parts.isEmpty then "." else ⟨joinSlash parts⟩

/-- `img_path in self.featured_images.values()`. -/
def isFeaturedImg (st : ScanState) (img : PyPath) : Bool :=
  st.featured_images.any (fun e => e.2 = img)

/-- The sequence-counter update of one `create_rename_dictionary`
iteration: a single-use non-featured image bumps its document's counter
and gets `sequence = counter` when the counter exceeds 1, else 0; every
other image gets sequence 0 and leaves the counters alone. -/
def renameSeq (st : ScanState) (img : PyPath) (usage_files : List PyPath)
    (counters : List (PyPath × Nat)) : Nat × List (PyPath × Nat) :=
  match usage_files, isFeaturedImg st img with
  | [md], false =>
    let c := cntGet counters md + 1
    (if c > 1 then c else 0, setAssoc counters md c)
  | _, _ => (0, counters)

/-- The loop of `create_rename_dictionary`, threading the per-document
sequence counters; a failing `relative_to` aborts the whole run with
`ValueError` (modelled as `Except.error` carrying the offending path). -/
def renameLoop (nfkd : Char → List Char) (docs : List MarkdownDoc)
    (input_dir : PyPath) (st : ScanState) :
    List (PyPath × List PyPath) → List (PyPath × Nat) →
      Except PyPath (List (String × String))
  | [], _ => .ok []
  | (img, usage_files) :: rest, counters =>
    match relative_to img input_dir with
    | none => .error img
    | some relParts =>
      match renameLoop nfkd docs input_dir st rest
          (renameSeq st img usage_files counters).2 with
      | .ok l => .ok ((renderRel relParts,
          generate_seo_filename nfkd docs img usage_files
            (isFeaturedImg st img)
            (renameSeq st img usage_files counters).1) :: l)
      | .error e => .error e

/-- `ImageProcessor.create_rename_dictionary`: iterate `image_usage` in
insertion order; keys are original paths relative to the input root,
values the generated filenames. -/
def create_rename_dictionary (nfkd : Char → List Char)
    (docs : List MarkdownDoc) (input_dir : PyPath) (st : ScanState) :
    Except PyPath (List (String × String)) :=
  renameLoop nfkd docs input_dir st st.image_usage []

def image_extensions : List String :=
  [".jpg", ".jpeg", ".png", ".gif", ".webp", ".svg", ".bmp"]

def isImageFile (p : PyPath) : Bool :=
  image_extensions.contains (strLower (pySuffix (PyPath.name p)))

/-- `ImageProcessor.find_image_files`: the files of the tree under the
input root with an image extension (faithful to the `os.walk` when the
input root is given in the same normalized absolute form as `Fs.files`). -/
def find_image_files (fs : Fs) (input_dir : PyPath) : List PyPath :=
  fs.files.filter (fun p =>
    p.absolute = input_dir.absolute &&
      input_dir.parts.isPrefixOf p.parts && isImageFile p)

/-- The loop of `find_orphaned_images` (`relative_to` can raise here as
well). -/
def orphanLoop (input_dir : PyPath) (used : List PyPath) :
    List PyPath → Except PyPath (List String)
  | [] => .ok []
  | img :: rest =>
    if used.contains img then orphanLoop input_dir used rest
    else
      match relative_to img input_dir with
      | none => .error img
      | some r =>
        match orphanLoop input_dir used rest with
        | .ok l => .ok (renderRel r :: l)
        | .error e => .error e

/-- `ImageProcessor.find_orphaned_images`: discovered image files that are
not keys of the usage index, as paths relative to the input root (the code
iterates a `set`; the list order here is the walk order, which is
immaterial to the set-level claims). -/
def find_orphaned_images (fs : Fs) (input_dir : PyPath) (st : ScanState) :
    Except PyPath (List String) :=
  orphanLoop input_dir (st.image_usage.map (fun e => e.1))
    (find_image_files fs input_dir)

/-! ## C9: `Path.relative_to` aborts the run on a relative input root -/

/-- A tree given with a relative input root `input` while the current
working directory is `/home`: the markdown file is walked as
`input/blog/post.md` and its `./pic.png` reference resolves (via
`Path.resolve()`) to the absolute `/home/input/blog/pic.png`. -/
def c9In : PyPath := ⟨false, ["input"]⟩

def c9Fs : Fs := ⟨["home"], [⟨true, ["home", "input", "blog", "pic.png"]⟩]⟩

def c9Md : PyPath := ⟨false, ["input", "blog", "post.md"]⟩

def c9Doc : MarkdownDoc := ⟨c9Md, [], "![x](./pic.png)"⟩

def c9Img : PyPath := ⟨true, ["home", "input", "blog", "pic.png"]⟩

/-- C9: on a valid tree with a resolvable `./` reference, resolution
succeeds with an absolute path, and `create_rename_dictionary` aborts with
`ValueError` from `Path.relative_to` (the absolute resolved path is not
relative to the relative input root) instead of skipping the image. -/
theorem relative_to_value_error_scenario :
    resolve_image_path c9Fs c9In "./pic.png" c9Md = some c9Img ∧
    create_rename_dictionary asciiNfkd [c9Doc] c9In
      (analyze_image_usage c9Fs c9In [c9Doc]) = .error c9Img := by
  exact ⟨rfl, rfl⟩

/-! ## C7: recovery from an unparseable document -/

/-- C7 counterexample: the spec says the raw file text becomes the body,
but on a parse failure `extract_frontmatter_and_content` returns an empty
body (`return {}, ""`), not the raw text. -/
theorem unparseable_body_counterexample :
    extract_frontmatter_and_content (fun _ => none) "hello world" =
      ([], "") ∧
    extract_frontmatter_and_content (fun _ => none) "hello world" ≠
      ([], "hello world") := by
  exact ⟨rfl, by decide⟩

/-- C7 as amended: a document whose frontmatter fails to parse is recovered
locally with no frontmatter and an *empty* body, and it contributes nothing
to the scan (the scan state passes through unchanged), so scanning
continues without a fatal error. -/
theorem unparseable_document_recovery
    (parse : String → Option (Fm × String)) (rf : RawFile)
    (h : parse rf.text = none) :
    (mkDoc parse rf).fm = [] ∧ (mkDoc parse rf).content = "" ∧
    (∀ (fs : Fs) (input_dir : PyPath) (st : ScanState),
      analyzeDoc fs input_dir st (mkDoc parse rf) = st) := by
  have hdoc : mkDoc parse rf = ⟨rf.path, [], ""⟩ := by
    unfold mkDoc extract_frontmatter_and_content
    rw [h]
  refine ⟨by rw [hdoc], by rw [hdoc], ?_⟩
  intro fs input_dir st
  rw [hdoc]
  rfl

/-- Witness for C7's amended theorem, at a concrete failing parse. -/
theorem unparseable_document_recovery_witness :
    (fun _ : String => (none : Option (Fm × String))) "hi" = none ∧
    ((mkDoc (fun _ => none) ⟨⟨true, ["in", "a.md"]⟩, "hi"⟩).fm = [] ∧
      (mkDoc (fun _ => none) ⟨⟨true, ["in", "a.md"]⟩, "hi"⟩).content = "" ∧
      analyzeDoc ⟨["w"], []⟩ ⟨true, ["in"]⟩ emptyScan
        (mkDoc (fun _ => none) ⟨⟨true, ["in", "a.md"]⟩, "hi"⟩) = emptyScan) := by
  have h := unparseable_document_recovery (fun _ => none)
    ⟨⟨true, ["in", "a.md"]⟩, "hi"⟩ rfl
  exact ⟨rfl, h.1, h.2.1, h.2.2 ⟨["w"], []⟩ ⟨true, ["in"]⟩ emptyScan⟩

/-! ## C2: what decides single-use vs multi-use -/

/-- One document referencing the same image twice. -/
def c2In : PyPath := ⟨true, ["in"]⟩

def c2Fs : Fs := ⟨["w"], [⟨true, ["in", "img.png"]⟩]⟩

def c2Doc : MarkdownDoc :=
  ⟨⟨true, ["in", "post.md"]⟩, [("slug", "cool-post")],
    "![a](./img.png) ![b](./img.png)"⟩

def c2Img : PyPath := ⟨true, ["in", "img.png"]⟩

/-- C2 counterexample: an image referenced twice by the *same* document has
exactly one distinct referencing document, yet the code names it by the
multi-use rule (slugified original stem) — the repeated reference counts
with multiplicity, not "at most one", in the classification. -/
theorem same_doc_twice_counterexample :
    (analyze_image_usage c2Fs c2In [c2Doc]).image_usage =
      [(c2Img, [c2Doc.path, c2Doc.path])] ∧
    ([c2Doc.path, c2Doc.path] : List PyPath).dedup.length = 1 ∧
    create_rename_dictionary asciiNfkd [c2Doc] c2In
      (analyze_image_usage c2Fs c2In [c2Doc]) =
      .ok [("img.png", "img.png")] ∧
    generate_seo_filename asciiNfkd [c2Doc] c2Img [c2Doc.path] false 0 =
      "cool-post.png" ∧
    ("img.png" : String) ≠ "cool-post.png" := by
  exact ⟨rfl, by decide, rfl, rfl, by decide⟩

/-- C2 as amended: the rule is decided by the length of the recorded usage
list, multiplicity included — the single-use rule applies exactly when the
image has exactly one recorded reference, and any other length (including
two references from the same document) yields the multi-use rule. -/
theorem usage_list_length_decides_rule (nfkd : Char → List Char)
    (docs : List MarkdownDoc) (orig : PyPath) (usage : List PyPath)
    (isF : Bool) (seq : Nat) :
    (∀ md, usage = [md] →
      generate_seo_filename nfkd docs orig usage isF seq =
        (if isF then
          _extract_slug_from_file nfkd docs md ++ "-feature" ++
            strLower (pySuffix (PyPath.name orig))
        else if seq > 0 then
          _extract_slug_from_file nfkd docs md ++ "-" ++ pad2 seq ++
            strLower (pySuffix (PyPath.name orig))
        else
          _extract_slug_from_file nfkd docs md ++
            strLower (pySuffix (PyPath.name orig)))) ∧
    (usage.length ≠ 1 →
      generate_seo_filename nfkd docs orig usage isF seq =
        _slugify nfkd (pyStem (PyPath.name orig)) ++
          strLower (pySuffix (PyPath.name orig))) := by
  constructor
  · intro md hmd
    subst hmd
    rfl
  · intro hlen
    match usage with
    | [] => rfl
    | [a] => exact absurd rfl hlen
    | a :: b :: t => rfl

/-- Witness for C2's amended theorem: both arms evaluated at concrete
inputs (a one-entry list and the two-entry list of the counterexample). -/
theorem usage_list_length_decides_rule_witness :
    generate_seo_filename asciiNfkd [c2Doc] c2Img [c2Doc.path] false 0 =
      "cool-post.png" ∧
    (([c2Doc.path, c2Doc.path] : List PyPath).length ≠ 1 ∧
      generate_seo_filename asciiNfkd [c2Doc] c2Img [c2Doc.path, c2Doc.path]
        false 0 = "img.png") := by
  constructor
  · have h := (usage_list_length_decides_rule asciiNfkd [c2Doc] c2Img
      [c2Doc.path] false 0).1 c2Doc.path rfl
    rw [h]
    rfl
  · refine ⟨by decide, ?_⟩
    have h := (usage_list_length_decides_rule asciiNfkd [c2Doc] c2Img
      [c2Doc.path, c2Doc.path] false 0).2 (by decide)
    rw [h]
    rfl

/-! ## C1: uniqueness of generated filenames -/

/-- Two documents in different directories whose stems give the same slug
`post`, each the sole user of its own image. -/
def c1In : PyPath := ⟨true, ["in"]⟩

def c1Fs : Fs :=
  ⟨["w"], [⟨true, ["in", "a", "one.png"]⟩, ⟨true, ["in", "b", "two.png"]⟩]⟩

def c1DocA : MarkdownDoc :=
  ⟨⟨true, ["in", "a", "post.md"]⟩, [], "![x](./one.png)"⟩

def c1DocB : MarkdownDoc :=
  ⟨⟨true, ["in", "b", "post.md"]⟩, [], "![y](./two.png)"⟩

/-- C1 counterexample: the rename map assigns two distinct original paths
the same new filename (`post.png`) when the owning documents' slugs
collide — new filenames are not globally unique. -/
theorem rename_collision_counterexample :
    create_rename_dictionary asciiNfkd [c1DocA, c1DocB] c1In
      (analyze_image_usage c1Fs c1In [c1DocA, c1DocB]) =
      .ok [("a/one.png", "post.png"), ("b/two.png", "post.png")] ∧
    ("a/one.png" : String) ≠ "b/two.png" := by
  exact ⟨rfl, by decide⟩

theorem relative_to_some {p root : PyPath} {r : List String}
    (h : relative_to p root = some r) :
    p.absolute = root.absolute ∧ p.parts = root.parts ++ r := by
  unfold relative_to at h
  split at h
  · next hc =>
    simp only [Bool.and_eq_true, decide_eq_true_eq] at hc
    obtain ⟨habs, hpre⟩ := hc
    obtain ⟨t, ht⟩ := List.isPrefixOf_iff_prefix.mp hpre
    simp only [Option.some.injEq] at h
    subst h
    refine ⟨habs, ?_⟩
    rw [← ht, List.drop_left]
  · exact absurd h (by simp)

theorem append_slash_inj :
    ∀ (a b x y : List Char), ('/' : Char) ∉ a → ('/' : Char) ∉ b →
      a ++ '/' :: x = b ++ '/' :: y → a = b ∧ x = y := by
  intro a
  induction a with
  | nil =>
    intro b x y _ hb h
    cases b with
    | nil => simpa using h
    | cons c b' =>
      simp only [List.nil_append, List.cons_append, List.cons.injEq] at h
      have hm : ('/' : Char) ∈ c :: b' := by
        rw [h.1]; exact List.mem_cons_self c b'
      exact absurd hm hb
  | cons c a' ih =>
    intro b x y ha hb h
    cases b with
    | nil =>
      simp only [List.cons_append, List.nil_append, List.cons.injEq] at h
      have hm : ('/' : Char) ∈ c :: a' := by
        rw [← h.1]; exact List.mem_cons_self c a'
      exact absurd hm ha
    | cons d b' =>
      simp only [List.cons_append, List.cons.injEq] at h
      obtain ⟨hcd, h'⟩ := h
      have := ih b' x y (fun hm => ha (List.mem_cons_of_mem c hm))
        (fun hm => hb (List.mem_cons_of_mem d hm)) h'
      exact ⟨by rw [hcd, this.1], this.2⟩

theorem joinSlash_cons_ne (s : String) (t : List String) (h : t ≠ []) :
    joinSlash (s :: t) = s.data ++ '/' :: joinSlash t := by
  cases t with
  | nil => exact absurd rfl h
  | cons a t' => rfl

theorem string_eq_of_data_eq {s t : String} (h : s.data = t.data) : s = t := by
  cases s; cases t
  exact congrArg String.mk h

/-- Component lists with nonempty, dot-free, slash-free components are
recovered from their `/`-joined rendering. -/
theorem renderRel_inj :
    ∀ (r1 r2 : List String),
      (∀ c ∈ r1, c ≠ "" ∧ c ≠ "." ∧ ('/' : Char) ∉ c.data) →
      (∀ c ∈ r2, c ≠ "" ∧ c ≠ "." ∧ ('/' : Char) ∉ c.data) →
      renderRel r1 = renderRel r2 → r1 = r2 := by
  intro r1
  induction r1 with
  | nil =>
    intro r2 _ h2 heq
    cases r2 with
    | nil => rfl
    | cons s t =>
      exfalso
      unfold renderRel at heq
      simp only [List.isEmpty_nil, if_true, List.isEmpty_cons,
        Bool.false_eq_true, if_false] at heq
      have hdata : ('.' : Char) :: [] = joinSlash (s :: t) :=
        congrArg String.data heq
      cases t with
      | nil =>
        have hs : s.data = ['.'] := by simpa [joinSlash] using hdata.symm
        exact (h2 s (List.mem_cons_self s [])).2.1
          (string_eq_of_data_eq (by rw [hs]))
      | cons b t' =>
        rw [joinSlash_cons_ne s (b :: t') (by simp)] at hdata
        cases hs : s.data with
        | nil => exact (h2 s (List.mem_cons_self s _)).1 (string_eq_of_data_eq (by rw [hs]))
        | cons c cs =>
          rw [hs] at hdata
          simp only [List.cons_append, List.cons.injEq] at hdata
          have : cs ++ '/' :: joinSlash (b :: t') = [] := hdata.2.symm
          simp at this
  | cons s t ih =>
    intro r2 h1 h2 heq
    cases r2 with
    | nil =>
      exfalso
      unfold renderRel at heq
      simp only [List.isEmpty_cons, Bool.false_eq_true, if_false,
        List.isEmpty_nil, if_true] at heq
      have hdata : joinSlash (s :: t) = ('.' : Char) :: [] :=
        congrArg String.data heq
      cases t with
      | nil =>
        have hs : s.data = ['.'] := by simpa [joinSlash] using hdata
        exact (h1 s (List.mem_cons_self s [])).2.1
          (string_eq_of_data_eq (by rw [hs]))
      | cons b t' =>
        rw [joinSlash_cons_ne s (b :: t') (by simp)] at hdata
        cases hs : s.data with
        | nil => exact (h1 s (List.mem_cons_self s _)).1 (string_eq_of_data_eq (by rw [hs]))
        | cons c cs =>
          rw [hs] at hdata
          simp only [List.cons_append, List.cons.injEq] at hdata
          have : cs ++ '/' :: joinSlash (b :: t') = [] := hdata.2
          simp at this
    | cons u v =>
      unfold renderRel at heq
      simp only [List.isEmpty_cons, Bool.false_eq_true, if_false] at heq
      have hdata : joinSlash (s :: t) = joinSlash (u :: v) :=
        congrArg String.data heq
      cases t with
      | nil =>
        cases v with
        | nil =>
          have : s.data = u.data := by simpa [joinSlash] using hdata
          rw [string_eq_of_data_eq this]
        | cons b v' =>
          exfalso
          rw [joinSlash_cons_ne u (b :: v') (by simp)] at hdata
          have hmem : ('/' : Char) ∈ s.data := by
            have : s.data = u.data ++ '/' :: joinSlash (b :: v') := by
              simpa [joinSlash] using hdata
            rw [this]
            exact List.mem_append_right _ (List.mem_cons_self _ _)
          exact (h1 s (List.mem_cons_self s _)).2.2 hmem
      | cons a t' =>
        cases v with
        | nil =>
          exfalso
          rw [joinSlash_cons_ne s (a :: t') (by simp)] at hdata
          have hmem : ('/' : Char) ∈ u.data := by
            have : u.data = s.data ++ '/' :: joinSlash (a :: t') := by
              simpa [joinSlash] using hdata.symm
            rw [this]
            exact List.mem_append_right _ (List.mem_cons_self _ _)
          exact (h2 u (List.mem_cons_self u _)).2.2 hmem
        | cons b v' =>
          rw [joinSlash_cons_ne s (a :: t') (by simp),
            joinSlash_cons_ne u (b :: v') (by simp)] at hdata
          obtain ⟨hsu, hrest⟩ := append_slash_inj s.data u.data _ _
            (h1 s (List.mem_cons_self s _)).2.2
            (h2 u (List.mem_cons_self u _)).2.2 hdata
          have hs : s = u := string_eq_of_data_eq hsu
          have ht : (a :: t') = (b :: v') := by
            apply ih (b :: v')
              (fun c hc => h1 c (List.mem_cons_of_mem s hc))
              (fun c hc => h2 c (List.mem_cons_of_mem u hc))
            unfold renderRel
            simp only [List.isEmpty_cons, Bool.false_eq_true, if_false]
            exact string_eq_of_data_eq hrest
          rw [hs, ht]

/-- When the loop succeeds, the produced keys are exactly the original
paths rendered relative to the input root, in usage-index order. -/
theorem renameLoop_keys (nfkd : Char → List Char) (docs : List MarkdownDoc)
    (input : PyPath) (st : ScanState) :
    ∀ (us : List (PyPath × List PyPath)) (counters : List (PyPath × Nat))
      (l : List (String × String)),
      renameLoop nfkd docs input st us counters = .ok l →
      l.map (fun e => e.1) =
        us.map (fun e => renderRel ((relative_to e.1 input).getD [])) := by
  intro us
  induction us with
  | nil =>
    intro counters l h
    simp only [renameLoop, Except.ok.injEq] at h
    subst h
    rfl
  | cons e rest ih =>
    intro counters l h
    obtain ⟨img, usage⟩ := e
    unfold renameLoop at h
    cases hrel : relative_to img input with
    | none => rw [hrel] at h; exact absurd h (by simp)
    | some r =>
      rw [hrel] at h
      cases hrec : renameLoop nfkd docs input st rest
          (renameSeq st img usage counters).2 with
      | error e' => rw [hrec] at h; exact absurd h (by simp)
      | ok l' =>
        rw [hrec] at h
        simp only [Except.ok.injEq] at h
        subst h
        simp only [List.map_cons, hrel, Option.getD_some]
        rw [ih _ l' hrec]

/-- C1 as amended: the rename map has one entry per image with pairwise
distinct keys (the original relative paths), but the mapped new filenames
are not guaranteed distinct across entries. -/
theorem rename_keys_distinct (nfkd : Char → List Char)
    (docs : List MarkdownDoc) (input : PyPath) (st : ScanState)
    (l : List (String × String))
    (hnodup : (st.image_usage.map (fun e => e.1)).Nodup)
    (hsome : ∀ e ∈ st.image_usage, relative_to e.1 input ≠ none)
    (hclean : ∀ e ∈ st.image_usage,
      ∀ comp ∈ (relative_to e.1 input).getD [],
        comp ≠ "" ∧ comp ≠ "." ∧ ('/' : Char) ∉ comp.data)
    (hok : create_rename_dictionary nfkd docs input st = .ok l) :
    (l.map (fun e => e.1)).Nodup := by
  have hkeys := renameLoop_keys nfkd docs input st st.image_usage [] l hok
  rw [hkeys]
  have hmm : st.image_usage.map
      (fun e => renderRel ((relative_to e.1 input).getD [])) =
      (st.image_usage.map (fun e => e.1)).map
        (fun k => renderRel ((relative_to k input).getD [])) := by
    rw [List.map_map]
    rfl
  rw [hmm]
  apply (List.nodup_map_iff_inj_on hnodup).mpr
  intro x hx y hy hxy
  obtain ⟨ex, hex, hex1⟩ := List.mem_map.mp hx
  obtain ⟨ey, hey, hey1⟩ := List.mem_map.mp hy
  cases hrx : relative_to x input with
  | none => exact absurd (hex1 ▸ hrx) (hsome ex hex)
  | some rx =>
    cases hry : relative_to y input with
    | none => exact absurd (hey1 ▸ hry) (hsome ey hey)
    | some ry =>
      rw [hrx, hry] at hxy
      simp only [Option.getD_some] at hxy
      have hcx := hclean ex hex
      rw [hex1, hrx] at hcx
      have hcy := hclean ey hey
      rw [hey1, hry] at hcy
      have hr : rx = ry := renderRel_inj rx ry hcx hcy hxy
      obtain ⟨hax, hpx⟩ := relative_to_some hrx
      obtain ⟨hay, hpy⟩ := relative_to_some hry
      cases x with
      | mk xa xp =>
        cases y with
        | mk ya yp =>
          simp only at hax hpx hay hpy
          congr 1
          · rw [hax, hay]
          · rw [hpx, hpy, hr]

/-- Witness for C1's amended theorem: on the collision scenario the keys
are nonetheless pairwise distinct. -/
theorem rename_keys_distinct_witness :
    (([("a/one.png", "post.png"), ("b/two.png", "post.png")] :
        List (String × String)).map (fun e => e.1)).Nodup := by
  have h := rename_keys_distinct asciiNfkd [c1DocA, c1DocB] c1In
    (analyze_image_usage c1Fs c1In [c1DocA, c1DocB])
    [("a/one.png", "post.png"), ("b/two.png", "post.png")]
    (by decide) (by decide) (by decide) (by rfl)
  exact h

/-! ## C10: markdown references are recorded before HTML references -/

/-- The fixture: the HTML reference appears *earlier in the text* than the
markdown one. -/
def c10In : PyPath := ⟨true, ["in"]⟩

def c10Fs : Fs :=
  ⟨["w"], [⟨true, ["in", "early.png"]⟩, ⟨true, ["in", "late.png"]⟩]⟩

def c10Doc : MarkdownDoc :=
  ⟨⟨true, ["in", "post.md"]⟩, [],
    "<img src='early.png'> then ![x](late.png)"⟩

/-- Every position holding a markdown-tagged reference precedes every
position holding an HTML-tagged one. -/
theorem c10_tag_positions (content : String) (i j : Nat) (pi pj : String)
    (hi : (find_images_in_content content).get? i = some (pi, "markdown"))
    (hj : (find_images_in_content content).get? j = some (pj, "html")) :
    i < j := by
  unfold find_images_in_content at hi hj
  set A := ((findAll mdMatchAt content.data.length content.data).filter
      (fun p => !is_external_url p)).map (fun p => (p, "markdown")) with hA
  set B := ((findAll htmlMatchAt content.data.length content.data).filter
      (fun p => !is_external_url p)).map (fun p => (p, "html")) with hB
  have hiA : i < A.length := by
    by_contra hlt
    push_neg at hlt
    rw [List.get?_append_right hlt] at hi
    rw [hB, List.get?_map] at hi
    cases hx : ((findAll htmlMatchAt content.data.length
        content.data).filter (fun p => !is_external_url p)).get?
        (i - A.length) with
    | none => rw [hx] at hi; simp at hi
    | some v =>
      rw [hx] at hi
      simp at hi
  have hjB : A.length ≤ j := by
    by_contra hlt
    push_neg at hlt
    rw [List.get?_append hlt] at hj
    rw [hA, List.get?_map] at hj
    cases hx : ((findAll mdMatchAt content.data.length
        content.data).filter (fun p => !is_external_url p)).get? j with
    | none => rw [hx] at hj; simp at hj
    | some v =>
      rw [hx] at hj
      simp at hj
  exact Nat.lt_of_lt_of_le hiA hjB

/-- C10: within one document every markdown-syntax reference is recorded
before every HTML reference, regardless of textual position: in the
reference list every markdown entry precedes every HTML entry, and on the
fixture (whose `<img>` occurs first in the body) the usage index still
records the markdown-referenced image first. -/
theorem markdown_recorded_before_html :
    (∀ (content : String) (i j : Nat) (pi pj : String),
      (find_images_in_content content).get? i = some (pi, "markdown") →
      (find_images_in_content content).get? j = some (pj, "html") →
      i < j) ∧
    find_images_in_content c10Doc.content =
      [("late.png", "markdown"), ("early.png", "html")] ∧
    (analyze_image_usage c10Fs c10In [c10Doc]).image_usage =
      [(⟨true, ["in", "late.png"]⟩, [c10Doc.path]),
        (⟨true, ["in", "early.png"]⟩, [c10Doc.path])] := by
  refine ⟨c10_tag_positions, by rfl, by rfl⟩

/-- Witness for C10: the positional ordering evaluated on the fixture. -/
theorem markdown_recorded_before_html_witness :
    (find_images_in_content c10Doc.content).get? 0 =
      some ("late.png", "markdown") ∧
    (find_images_in_content c10Doc.content).get? 1 =
      some ("early.png", "html") ∧
    (0 : Nat) < 1 := by
  refine ⟨by rfl, by rfl, ?_⟩
  exact (markdown_recorded_before_html).1 c10Doc.content 0 1
    "late.png" "early.png" (by rfl) (by rfl)

/-! ## C4: per-document sequence numbers for single-use inline images -/

/-- The owning document of a usage-index entry that takes the
counter-bumping branch (single-use, non-featured), if any. -/
def suNfOwner (st : ScanState) (e : PyPath × List PyPath) : Option PyPath :=
  match e.2 with
  | [d] => if isFeaturedImg st e.1 then none else some d
  | _ => none

/-- `sequence = image_counters[md] if image_counters[md] > 1 else 0`. -/
def seqOf (c : Nat) : Nat := if c > 1 then c else 0

theorem cntGet_cons_ne (k0 : PyPath) (v0 : Nat)
    (X : List (PyPath × Nat)) (k' : PyPath) (h : ¬k0 = k') :
    cntGet ((k0, v0) :: X) k' = cntGet X k' := by
  unfold cntGet
  rw [List.find?_cons_of_neg]
  simp [h]

theorem cntGet_cons_eq (k0 : PyPath) (v0 : Nat) (X : List (PyPath × Nat)) :
    cntGet ((k0, v0) :: X) k0 = v0 := by
  unfold cntGet
  rw [List.find?_cons_of_pos] <;> simp

theorem cntGet_setAssoc :
    ∀ (cnt : List (PyPath × Nat)) (k : PyPath) (v : Nat) (k' : PyPath),
      cntGet (setAssoc cnt k v) k' = if k' = k then v else cntGet cnt k' := by
  intro cnt
  induction cnt with
  | nil =>
    intro k v k'
    by_cases h : k' = k
    · rw [if_pos h, h]
      simp only [setAssoc]
      exact cntGet_cons_eq k v []
    · rw [if_neg h]
      simp only [setAssoc]
      rw [cntGet_cons_ne k v [] k' (fun hh => h hh.symm)]
  | cons e rest ih =>
    intro k v k'
    obtain ⟨k0, v0⟩ := e
    by_cases h0 : k0 = k
    · simp only [setAssoc, if_pos h0]
      by_cases h' : k' = k
      · rw [if_pos h', h']
        exact cntGet_cons_eq k v rest
      · rw [if_neg h']
        rw [cntGet_cons_ne k v rest k' (fun hh => h' hh.symm)]
        rw [cntGet_cons_ne k0 v0 rest k' (fun hh => h' (hh.symm.trans h0))]
    · simp only [setAssoc, if_neg h0]
      by_cases h' : k' = k0
      · rw [if_neg (fun hh => h0 (h'.symm.trans hh)), h']
        rw [cntGet_cons_eq, cntGet_cons_eq]
      · rw [cntGet_cons_ne k0 v0 (setAssoc rest k v) k' (fun hh => h' hh.symm)]
        rw [cntGet_cons_ne k0 v0 rest k' (fun hh => h' hh.symm)]
        exact ih k v k'

theorem renameSeq_cnt (st : ScanState) (img0 : PyPath)
    (usage0 : List PyPath) (counters : List (PyPath × Nat)) (d : PyPath) :
    cntGet (renameSeq st img0 usage0 counters).2 d =
      cntGet counters d +
        (if suNfOwner st (img0, usage0) = some d then 1 else 0) := by
  cases usage0 with
  | nil => simp [renameSeq, suNfOwner]
  | cons a t =>
    cases t with
    | nil =>
      cases hF : isFeaturedImg st img0 with
      | false =>
        simp only [renameSeq, hF, suNfOwner, Bool.false_eq_true, if_false]
        rw [cntGet_setAssoc]
        by_cases hd : d = a
        · subst hd
          simp
        · have hne : ¬(some a = some d) := fun hh => hd (Option.some.inj hh).symm
          rw [if_neg hd, if_neg hne]
          omega
      | true =>
        simp [renameSeq, hF, suNfOwner]
    | cons b t2 => simp [renameSeq, suNfOwner]

theorem renameSeq_single_false (st : ScanState) (img md : PyPath)
    (counters : List (PyPath × Nat)) (h : isFeaturedImg st img = false) :
    renameSeq st img [md] counters =
      (seqOf (cntGet counters md + 1),
        setAssoc counters md (cntGet counters md + 1)) := by
  unfold renameSeq
  rw [h]
  rfl

/-- The generalized invariant behind C4: in a successful run, the entry of
the `i`-th usage-index item that is single-use (owned by `d`) and
non-featured carries the sequence derived from the incoming counter of `d`
plus the number of earlier single-use non-featured items owned by `d`. -/
theorem renameLoop_single_seq (nfkd : Char → List Char)
    (docs : List MarkdownDoc) (input : PyPath) (st : ScanState) :
    ∀ (us : List (PyPath × List PyPath)) (counters : List (PyPath × Nat))
      (l : List (String × String)),
      renameLoop nfkd docs input st us counters = .ok l →
      ∀ (i : Nat) (img d : PyPath),
        us.get? i = some (img, [d]) →
        isFeaturedImg st img = false →
        l.get? i = some (renderRel ((relative_to img input).getD []),
          generate_seo_filename nfkd docs img [d] false
            (seqOf (cntGet counters d +
              ((us.take i).filter
                (fun e => suNfOwner st e = some d)).length + 1))) := by
  intro us
  induction us with
  | nil =>
    intro counters l _ i img d hi _
    simp at hi
  | cons e0 rest ih =>
    intro counters l h i img d hi hnf
    obtain ⟨img0, usage0⟩ := e0
    unfold renameLoop at h
    cases hrel : relative_to img0 input with
    | none => rw [hrel] at h; exact absurd h (by simp)
    | some r0 =>
      rw [hrel] at h
      cases hrec : renameLoop nfkd docs input st rest
          (renameSeq st img0 usage0 counters).2 with
      | error e' => rw [hrec] at h; exact absurd h (by simp)
      | ok l' =>
        rw [hrec] at h
        simp only [Except.ok.injEq] at h
        subst h
        cases i with
        | zero =>
          simp only [List.get?_cons_zero, Option.some.injEq] at hi
          rw [Prod.mk.injEq] at hi
          obtain ⟨h1, h2⟩ := hi
          subst h1
          subst h2
          simp only [List.get?_cons_zero, hrel, Option.getD_some,
            List.take_zero, List.filter_nil, List.length_nil, hnf,
            renameSeq_single_false st img0 d counters hnf]
        | succ j =>
          simp only [List.get?_cons_succ] at hi ⊢
          have hIH := ih (renameSeq st img0 usage0 counters).2 l' hrec
            j img d hi hnf
          rw [hIH]
          have harith : cntGet (renameSeq st img0 usage0 counters).2 d +
              ((rest.take j).filter
                (fun e => suNfOwner st e = some d)).length + 1 =
              cntGet counters d +
                ((((img0, usage0) :: rest).take (j + 1)).filter
                  (fun e => suNfOwner st e = some d)).length + 1 := by
            rw [renameSeq_cnt]
            simp only [List.take_succ_cons, List.filter_cons]
            by_cases hOwn : suNfOwner st (img0, usage0) = some d
            · rw [if_pos hOwn]
              rw [if_pos (by simpa using hOwn)]
              simp only [List.length_cons]
              omega
            · rw [if_neg hOwn]
              rw [if_neg (by simpa using hOwn)]
              omega
          rw [harith]

/-- C4: sequence numbers are assigned per owning document in usage-index
insertion order: with `N - 1` earlier single-use non-featured images of the
same document, the first (`N = 1`) gets `{slug}{ext}` with no suffix and
the `N`-th (`N ≥ 2`) gets `{slug}-{N:02d}{ext}`. -/
theorem sequence_numbering_per_document (nfkd : Char → List Char)
    (docs : List MarkdownDoc) (input : PyPath) (st : ScanState)
    (l : List (String × String)) (i : Nat) (img d : PyPath)
    (hok : create_rename_dictionary nfkd docs input st = .ok l)
    (hi : st.image_usage.get? i = some (img, [d]))
    (hnf : isFeaturedImg st img = false) :
    l.get? i = some (renderRel ((relative_to img input).getD []),
      if ((st.image_usage.take i).filter
          (fun e => suNfOwner st e = some d)).length = 0 then
        _extract_slug_from_file nfkd docs d ++
          strLower (pySuffix (PyPath.name img))
      else
        _extract_slug_from_file nfkd docs d ++ "-" ++
          pad2 (((st.image_usage.take i).filter
            (fun e => suNfOwner st e = some d)).length + 1) ++
          strLower (pySuffix (PyPath.name img))) := by
  have h := renameLoop_single_seq nfkd docs input st st.image_usage [] l
    hok i img d hi hnf
  rw [h]
  set prior := ((st.image_usage.take i).filter
    (fun e => suNfOwner st e = some d)).length with hprior
  by_cases hp : prior = 0
  · rw [hp]
    rw [if_pos rfl]
    rfl
  · rw [if_neg hp]
    have hseq : seqOf (cntGet [] d + prior + 1) = prior + 1 := by
      unfold seqOf cntGet
      simp only [List.find?_nil]
      rw [if_pos (by omega)]
      omega
    rw [hseq]
    have hgen : generate_seo_filename nfkd docs img [d] false (prior + 1) =
        _extract_slug_from_file nfkd docs d ++ "-" ++ pad2 (prior + 1) ++
          strLower (pySuffix (PyPath.name img)) := by
      simp only [generate_seo_filename]
      rw [if_neg (by simp), if_pos (by omega)]
    rw [hgen]

/-- One document with two single-use inline images. -/
def c4In : PyPath := ⟨true, ["in"]⟩

def c4Fs : Fs := ⟨["w"], [⟨true, ["in", "x.png"]⟩, ⟨true, ["in", "y.png"]⟩]⟩

def c4Doc : MarkdownDoc :=
  ⟨⟨true, ["in", "post.md"]⟩, [], "![a](./x.png) ![b](./y.png)"⟩

/-- Witness for C4: the first inline image gets `post.png`, the second
`post-02.png`, by the theorem applied at index 1. -/
theorem sequence_numbering_witness :
    create_rename_dictionary asciiNfkd [c4Doc] c4In
      (analyze_image_usage c4Fs c4In [c4Doc]) =
      .ok [("x.png", "post.png"), ("y.png", "post-02.png")] ∧
    ([("x.png", "post.png"), ("y.png", "post-02.png")] :
      List (String × String)).get? 1 = some ("y.png", "post-02.png") := by
  refine ⟨by rfl, ?_⟩
  have h := sequence_numbering_per_document asciiNfkd [c4Doc] c4In
    (analyze_image_usage c4Fs c4In [c4Doc])
    [("x.png", "post.png"), ("y.png", "post-02.png")] 1
    ⟨true, ["in", "y.png"]⟩ ⟨true, ["in", "post.md"]⟩ (by rfl) (by rfl)
    (by rfl)
  exact h.trans (by rfl)

/-! ## C8: orphans are the set difference and never rename-map keys -/

theorem orphanLoop_spec (input : PyPath) (used : List PyPath) :
    ∀ (imgs : List PyPath) (l : List String),
      orphanLoop input used imgs = .ok l →
      l = (imgs.filter (fun p => !used.contains p)).map
        (fun p => renderRel ((relative_to p input).getD [])) := by
  intro imgs
  induction imgs with
  | nil =>
    intro l h
    simp only [orphanLoop, Except.ok.injEq] at h
    subst h
    rfl
  | cons p rest ih =>
    intro l h
    unfold orphanLoop at h
    by_cases hc : used.contains p
    · rw [if_pos hc] at h
      rw [List.filter_cons_of_neg (by rw [hc]; decide)]
      exact ih l h
    · have hc' : used.contains p = false := by
        revert hc; cases used.contains p <;> simp
      rw [if_neg hc] at h
      cases hrel : relative_to p input with
      | none => rw [hrel] at h; exact absurd h (by simp)
      | some r =>
        rw [hrel] at h
        cases hrec : orphanLoop input used rest with
        | error e => rw [hrec] at h; exact absurd h (by simp)
        | ok l' =>
          rw [hrec] at h
          simp only [Except.ok.injEq] at h
          subst h
          rw [List.filter_cons_of_pos (by rw [hc']; decide)]
          simp only [List.map_cons, hrel, Option.getD_some]
          rw [ih l' hrec]

theorem find_image_files_rel (fs : Fs) (input : PyPath) (p : PyPath)
    (hp : p ∈ find_image_files fs input) :
    relative_to p input = some (p.parts.drop input.parts.length) := by
  unfold find_image_files at hp
  have := (List.mem_filter.mp hp).2
  simp only [Bool.and_eq_true, decide_eq_true_eq] at this
  unfold relative_to
  rw [if_pos (by simp [this.1.1, this.1.2])]

theorem renameLoop_rel_some (nfkd : Char → List Char)
    (docs : List MarkdownDoc) (input : PyPath) (st : ScanState) :
    ∀ (us : List (PyPath × List PyPath)) (counters : List (PyPath × Nat))
      (l : List (String × String)),
      renameLoop nfkd docs input st us counters = .ok l →
      ∀ e ∈ us, relative_to e.1 input ≠ none := by
  intro us
  induction us with
  | nil => intro counters l _ e he; simp at he
  | cons e0 rest ih =>
    intro counters l h e he
    obtain ⟨img, usage⟩ := e0
    unfold renameLoop at h
    cases hrel : relative_to img input with
    | none => rw [hrel] at h; exact absurd h (by simp)
    | some r =>
      rw [hrel] at h
      cases hrec : renameLoop nfkd docs input st rest
          (renameSeq st img usage counters).2 with
      | error e' => rw [hrec] at h; exact absurd h (by simp)
      | ok l' =>
        rcases List.mem_cons.mp he with heq | hmem
        · subst heq
          simp [hrel]
        · exact ih _ l' hrec e hmem

/-- Two paths under the same root with clean relative components coincide
when their relative renderings coincide. -/
theorem rel_render_inj (input p q : PyPath) (rp rq : List String)
    (hp : relative_to p input = some rp)
    (hq : relative_to q input = some rq)
    (hcp : ∀ comp ∈ rp, comp ≠ "" ∧ comp ≠ "." ∧ ('/' : Char) ∉ comp.data)
    (hcq : ∀ comp ∈ rq, comp ≠ "" ∧ comp ≠ "." ∧ ('/' : Char) ∉ comp.data)
    (heq : renderRel rp = renderRel rq) : p = q := by
  have hr : rp = rq := renderRel_inj rp rq hcp hcq heq
  obtain ⟨hap, hpp⟩ := relative_to_some hp
  obtain ⟨haq, hpq⟩ := relative_to_some hq
  cases p with
  | mk pa pp =>
    cases q with
    | mk qa qp =>
      simp only at hap hpp haq hpq
      congr 1
      · rw [hap, haq]
      · rw [hpp, hpq, hr]

/-- C8: the orphan list is exactly the discovered images minus the used
images (identity by resolved path), rendered relative to the input root,
and no orphan string is a key of the rename map. -/
theorem orphans_set_difference_disjoint (nfkd : Char → List Char)
    (docs : List MarkdownDoc) (input : PyPath) (st : ScanState) (fs : Fs)
    (orph : List String) (l : List (String × String))
    (hclean : ∀ p ∈ fs.files, ∀ comp ∈ p.parts,
      comp ≠ "" ∧ comp ≠ "." ∧ ('/' : Char) ∉ comp.data)
    (hkclean : ∀ e ∈ st.image_usage, ∀ comp ∈ e.1.parts,
      comp ≠ "" ∧ comp ≠ "." ∧ ('/' : Char) ∉ comp.data)
    (horph : find_orphaned_images fs input st = .ok orph)
    (hren : create_rename_dictionary nfkd docs input st = .ok l) :
    orph = ((find_image_files fs input).filter
        (fun p => !(st.image_usage.map (fun e => e.1)).contains p)).map
      (fun p => renderRel ((relative_to p input).getD [])) ∧
    ∀ s ∈ orph, s ∉ l.map (fun e => e.1) := by
  have horph' : orphanLoop input (st.image_usage.map (fun e => e.1))
      (find_image_files fs input) = .ok orph := horph
  have hspec := orphanLoop_spec input (st.image_usage.map (fun e => e.1))
    (find_image_files fs input) orph horph'
  refine ⟨hspec, ?_⟩
  intro s hs hsl
  rw [hspec] at hs
  obtain ⟨p, hpf, hps⟩ := List.mem_map.mp hs
  obtain ⟨hpdisc, hpnot⟩ := List.mem_filter.mp hpf
  have hkeys := renameLoop_keys nfkd docs input st st.image_usage [] l hren
  rw [hkeys] at hsl
  obtain ⟨e, he, hes⟩ := List.mem_map.mp hsl
  have hqsome : relative_to e.1 input ≠ none :=
    renameLoop_rel_some nfkd docs input st st.image_usage [] l hren e he
  cases hq : relative_to e.1 input with
  | none => exact absurd hq hqsome
  | some rq =>
    have hp : relative_to p input =
        some (p.parts.drop input.parts.length) :=
      find_image_files_rel fs input p hpdisc
    have hpfs : p ∈ fs.files := List.mem_of_mem_filter hpdisc
    have hrp : p.parts = input.parts ++ p.parts.drop input.parts.length :=
      (relative_to_some hp).2
    have hrq : e.1.parts = input.parts ++ rq := (relative_to_some hq).2
    have hcp : ∀ comp ∈ p.parts.drop input.parts.length,
        comp ≠ "" ∧ comp ≠ "." ∧ ('/' : Char) ∉ comp.data := by
      intro comp hc
      exact hclean p hpfs comp (by rw [hrp]; exact List.mem_append_right _ hc)
    have hcq : ∀ comp ∈ rq,
        comp ≠ "" ∧ comp ≠ "." ∧ ('/' : Char) ∉ comp.data := by
      intro comp hc
      exact hkclean e he comp (by rw [hrq]; exact List.mem_append_right _ hc)
    have heq : renderRel (p.parts.drop input.parts.length) = renderRel rq := by
      rw [← hes] at hps
      rw [hq] at hps
      rw [hp] at hps
      simpa using hps
    have hpq : p = e.1 :=
      rel_render_inj input p e.1 _ rq hp hq hcp hcq heq
    have hcont : (st.image_usage.map (fun e => e.1)).contains p = true := by
      rw [hpq]
      exact List.elem_eq_true_of_mem (List.mem_map_of_mem _ he)
    simp [hcont] at hpnot
    apply hpnot e.2
    rw [hpq]
    exact he

/-- One used image and one orphan. -/
def c8In : PyPath := ⟨true, ["in"]⟩

def c8Fs : Fs :=
  ⟨["w"], [⟨true, ["in", "used.png"]⟩, ⟨true, ["in", "orphan.png"]⟩]⟩

def c8Doc : MarkdownDoc :=
  ⟨⟨true, ["in", "post.md"]⟩, [], "![a](./used.png)"⟩

/-- Witness for C8 at the concrete tree: `orphan.png` is the one orphan and
is not a rename-map key. -/
theorem orphans_set_difference_disjoint_witness :
    find_orphaned_images c8Fs c8In
      (analyze_image_usage c8Fs c8In [c8Doc]) = .ok ["orphan.png"] ∧
    (["orphan.png"] =
      ((find_image_files c8Fs c8In).filter
        (fun p => !((analyze_image_usage c8Fs c8In [c8Doc]).image_usage.map
          (fun e => e.1)).contains p)).map
        (fun p => renderRel ((relative_to p c8In).getD [])) ∧
      ∀ s ∈ ["orphan.png"],
        s ∉ ([("used.png", "post.png")] : List (String × String)).map
          (fun e => e.1)) := by
  refine ⟨by rfl, ?_⟩
  exact orphans_set_difference_disjoint asciiNfkd [c8Doc] c8In
    (analyze_image_usage c8Fs c8In [c8Doc]) c8Fs ["orphan.png"]
    [("used.png", "post.png")] (by decide) (by decide) (by rfl) (by rfl)

end MdToWp
